import Mathlib

/-!
Shallow embedding of the upload-benchmark CLI (`src/cli.mjs`, plus the legacy
variant shipped as an unnamed source file) and proofs about the claims of its
specification.

Numbers: JavaScript numbers are IEEE doubles; here they are modelled as exact
rationals (`ℚ`), with `Math.round` made explicit.  At every concrete input used
in a theorem below the double-precision computation and the rational
computation agree (checked separately), so the rational model is faithful at
those points.  Integer results produced by `Math.round` are modelled as `ℤ`.

The file is organised as definitions first (sections D1–D6), then theorems.
-/

namespace CldBench

/-! ### D1: JS numeric primitives -/

/-- Model of JavaScript `Math.round`: round half toward positive infinity. -/
def jround (q : ℚ) : ℤ := ⌊q + 1/2⌋

/-- Model of `+x.toFixed(2)` (cli.mjs line 401): round to 2 decimal places. -/
def toFixed2 (q : ℚ) : ℚ := (jround (q * 100) : ℚ) / 100

/-! ### D2: statistics aggregate `summarize` (cli.mjs lines 381–407) -/

/-- Result record of `summarize`.  `avg/p50/p95/min/max` are `null` (`none`)
for an empty sample list. -/
structure Summary where
  count : ℕ
  avg : Option ℚ
  p50 : Option ℚ
  p95 : Option ℚ
  min : Option ℚ
  max : Option ℚ
deriving DecidableEq, Repr

/-- The inner `percentile` closure of `summarize` (cli.mjs lines 389–397),
applied to the sorted sample list `s`.  `pos = (p/100)*(n-1)`,
`base = Math.floor(pos)`, `rest = pos - base`; if `s[base+1]` is defined the
result is `Math.round(s[base] + rest * (s[base+1] - s[base]))`, otherwise
`s[base]`.  Out-of-bounds reads (unreachable for `0 ≤ p ≤ 100` on a nonempty
list) default to 0. -/
def percentile (s : List ℚ) (p : ℚ) : ℚ :=
  let n := s.length
  let pos : ℚ := (p / 100) * ((n : ℚ) - 1)
  let base : ℕ := (⌊pos⌋).toNat
  let rest : ℚ := pos - (base : ℚ)
  match s.get? (base + 1) with
  | some nxt => ((jround (s.getD base 0 + rest * (nxt - s.getD base 0))) : ℚ)
  | none => s.getD base 0

/-- `summarize` (cli.mjs lines 381–407): statistics of a sample list.  The
JS `arr.slice().sort((a,b) => a-b)` ascending numeric sort is modelled by
`List.insertionSort` (both are stable sorts; only the sorted order matters
here). -/
def summarize (arr : List ℚ) : Summary :=
  let n := arr.length
  if n = 0 then ⟨0, none, none, none, none, none⟩
  else
    let s := arr.insertionSort (· ≤ ·)
    let avg := arr.sum / (n : ℚ)
    { count := n
      avg := some (toFixed2 avg)
      p50 := some (percentile s 50)
      p95 := some (percentile s 95)
      min := s.get? 0
      max := s.get? (n - 1) }

/-! ### D3: `shuffle` (cli.mjs lines 105–112)

Fisher–Yates on a copy of the input: `const b = a.slice()` then for
`i = b.length-1` down to `1`, pick `j = Math.floor(Math.random()*(i+1))`
(uniform in `[0, i]`) and swap `b[i]` with `b[j]`.  The random draws are
modelled by an arbitrary function `rand : ℕ → ℕ`, reduced mod `i+1` so that
the swap partner is any index in `[0, i]`, exactly the possible values of the
JS expression.  The model is a pure function on lists: the input list is
untouched by construction, mirroring the `slice()` copy. -/

/-- Swap the entries at positions `i` and `j` (`[b[i], b[j]] = [b[j], b[i]]`,
cli.mjs line 109).  Out of bounds (unreachable in the loop) is the identity. -/
def swapL (l : List α) (i j : ℕ) : List α :=
  if h : i < l.length ∧ j < l.length then
    (l.set i (l.get ⟨j, h.2⟩)).set j (l.get ⟨i, h.1⟩)
  else l

/-- The descending loop of `shuffle`: argument `i` is the current loop index;
the loop body runs for `i = len-1, …, 1` and stops at `i = 0`. -/
def fyLoop (rand : ℕ → ℕ) : ℕ → List α → List α
  | 0, b => b
  | i+1, b => fyLoop rand i (swapL b (i+1) (rand (i+1) % (i+2)))

/-- `shuffle` (cli.mjs lines 105–112). -/
def shuffle (rand : ℕ → ℕ) (a : List α) : List α :=
  fyLoop rand (a.length - 1) a

/-! ### D4: phase-timing correlator (cli.mjs lines 148–251, 409–417)

`reqMap` is a JS `Map` from trace id to record; it is modelled as an
association list with unique keys (`Map.set` never duplicates a key; the
model's delete removes every binding of the key, which coincides with JS
`Map.delete` on such lists).  Trace ids are modelled as `ℕ`, timestamps
(`performance.now()` values, fractional milliseconds) as `ℚ`.  A field that
the event handlers have not written yet is `none` (JS `undefined`). -/

/-- A `reqMap` entry (cli.mjs lines 182, 189–198, 204, 210, 216). -/
structure TraceRecord where
  createdAt : Option ℚ := none
  sendHeadersAt : Option ℚ := none
  bodySentAt : Option ℚ := none
  headersAt : Option ℚ := none
  doneAt : Option ℚ := none
  connectAt : Option ℚ := none
  remote : Option String := none
  alpn : Option String := none
  tls : Option String := none
  cipher : Option String := none
deriving DecidableEq, Repr

/-- The timings object built by `collectTimings` (cli.mjs lines 225–248). -/
structure Timings where
  queueMs : Option ℤ
  uploadMs : Option ℤ
  ttfbMs : Option ℤ
  downloadMs : Option ℤ
  connectMs : Option ℤ
  remoteIp : Option String
  alpn : Option String
  tlsProtocol : Option String
  tlsCipher : Option String
deriving DecidableEq, Repr

/-- JS truthiness of a numeric field: `undefined` and `0` are falsy. -/
def truthy : Option ℚ → Bool
  | none => false
  | some q => q != 0

/-- One derived phase `a && b ? Math.round(a - b) : null` (cli.mjs
lines 226–243): the rounded difference of the two endpoint timestamps when
both are truthy, `null` otherwise. -/
def phase (a b : Option ℚ) : Option ℤ :=
  match a, b with
  | some x, some y => if x ≠ 0 ∧ y ≠ 0 then some (jround (x - y)) else none
  | _, _ => none

/-- The timings object computed from a live record (cli.mjs lines 225–248). -/
def mkTimings (r : TraceRecord) : Timings :=
  { queueMs := phase r.sendHeadersAt r.createdAt
    uploadMs := phase r.bodySentAt r.sendHeadersAt
    ttfbMs := phase r.headersAt r.bodySentAt
    downloadMs := phase r.doneAt r.headersAt
    connectMs := phase r.sendHeadersAt r.connectAt
    remoteIp := r.remote
    alpn := r.alpn
    tlsProtocol := r.tls
    tlsCipher := r.cipher }

/-- `reqMap.get(traceId)` on the association-list model. -/
def mapGet (m : List (ℕ × TraceRecord)) (k : ℕ) : Option TraceRecord :=
  (m.find? (fun p => p.1 == k)).map (fun p => p.2)

/-- `reqMap.delete(traceId)` on the association-list model. -/
def mapDelete (m : List (ℕ × TraceRecord)) (k : ℕ) : List (ℕ × TraceRecord) :=
  m.filter (fun p => p.1 != k)

/-- `collectTimings` (cli.mjs lines 222–251): look up the trace record; if
absent return `null` and leave the map unchanged; otherwise build the timings
object, delete the record, and return the timings.  The pair is
(returned value, `reqMap` after the call). -/
def collectTimings (m : List (ℕ × TraceRecord)) (traceId : ℕ) :
    Option Timings × List (ℕ × TraceRecord) :=
  match mapGet m traceId with
  | none => (none, m)
  | some r => (some (mkTimings r), mapDelete m traceId)

/-- A record is stale at `cutoff` when `rec.createdAt < cutoff` (cli.mjs
line 413); a record with no `createdAt` is never stale (the JS comparison
with `undefined` is false). -/
def staleAt (cutoff : ℚ) (r : TraceRecord) : Bool :=
  match r.createdAt with
  | some t => t < cutoff
  | none => false

/-- `cleanupOrphanedTraces` (cli.mjs lines 409–417) at sweep time `nowT`:
delete every record whose `createdAt` is older than `nowT - 300000`
(5 minutes). -/
def cleanupOrphanedTraces (nowT : ℚ) (m : List (ℕ × TraceRecord)) :
    List (ℕ × TraceRecord) :=
  m.filter (fun p => !(staleAt (nowT - 300000) p.2))

/-! ### D5: bounded concurrency pool `mapPool` (cli.mjs lines 254–286)

`mapPool(items, limit, fn)` drives at most `limit` concurrent tasks.  The
embedding is a small-step state machine:

* `PoolState` holds the loop variables `i` (`nextIdx`), the set of in-flight
  task indices (`running`, replacing the scalar `inFlight` counter so that the
  settling task is identifiable; `inFlight = running.length`), and the result
  array `ret` (a slot is `none` until its task settles).
* `fill` is the synchronous `while (inFlight < limit && i < items.length)`
  dispatch loop of `next()` (lines 265–281).
* `PoolStep` is the settling of one in-flight task `j` — the `.then/.finally`
  continuation of lines 268–280: the slot `ret[j]` receives the task's value
  or its rejection (`Except`), `inFlight` drops, and `next()` refills.
  Which task settles first is nondeterministic, so every completion order is
  covered.
* `PoolReach` are the states reachable from the initial `next()` call
  (line 283); `PoolDone` is the `resolveAll` condition of line 264.
* `normLimit` is the limit normalization of line 255
  (`if (!Number.isFinite(limit) || limit < 1) limit = items.length`; the
  non-finite doubles NaN/±∞ have no rational counterpart and are not
  modelled — the claims only concern finite limits).

The task is a pure function `α → Except ε ρ`: `fn(items[idx], idx)` either
fulfills (`Except.ok`) or rejects (`Except.error`). -/

/-- State of one `mapPool` run. -/
structure PoolState (ε ρ : Type) where
  nextIdx : ℕ
  running : List ℕ
  ret : List (Option (Except ε ρ))

/-- Limit normalization (cli.mjs line 255). -/
def normLimit (n : ℕ) (limit : ℤ) : ℕ := if limit < 1 then n else limit.toNat

/-- The dispatch loop of `next()` (cli.mjs lines 265–281): start tasks while
a slot is free and items remain. -/
def fill (n limit : ℕ) (s : PoolState ε ρ) : PoolState ε ρ :=
  if _h : s.running.length < limit ∧ s.nextIdx < n then
    fill n limit ⟨s.nextIdx + 1, s.running ++ [s.nextIdx], s.ret⟩
  else s
termination_by n - s.nextIdx
decreasing_by omega

/-- One scheduler step: some in-flight task `j` settles (its slot receives the
task's outcome, cli.mjs lines 268–276), `inFlight` drops and `next()` refills
(lines 277–280). -/
inductive PoolStep (items : List α) (limit : ℕ) (task : α → Except ε ρ) :
    PoolState ε ρ → PoolState ε ρ → Prop
  | settle (s : PoolState ε ρ) (j : ℕ) (hj : j ∈ s.running) :
      PoolStep items limit task s
        (fill items.length limit
          ⟨s.nextIdx, s.running.erase j, s.ret.set j ((items.get? j).map task)⟩)

/-- States reachable during the `mapPool` run. -/
inductive PoolReach (items : List α) (limit : ℕ) (task : α → Except ε ρ) :
    PoolState ε ρ → Prop
  | init : PoolReach items limit task
      (fill items.length limit ⟨0, [], List.replicate items.length none⟩)
  | step {s s' : PoolState ε ρ} : PoolReach items limit task s →
      PoolStep items limit task s s' → PoolReach items limit task s'

/-- The completion condition of cli.mjs line 264:
`i >= items.length && inFlight === 0`. -/
def PoolDone (n : ℕ) (s : PoolState ε ρ) : Prop :=
  n ≤ s.nextIdx ∧ s.running = []

/-- Invariant of pool states that is preserved by the dispatch loop `fill`:
in-flight indices are dispatched, distinct, and at most `limit` many; a result
slot is filled exactly when its task has been dispatched and has settled. -/
structure PrePoolInv (items : List α) (limit : ℕ) (task : α → Except ε ρ)
    (s : PoolState ε ρ) : Prop where
  running_lt : ∀ j ∈ s.running, j < s.nextIdx
  nodup : s.running.Nodup
  idx_le : s.nextIdx ≤ items.length
  count_le : s.running.length ≤ limit
  ret_len : s.ret.length = items.length
  slots : ∀ i : ℕ, i < items.length →
    s.ret.get? i =
      some (if i < s.nextIdx ∧ i ∉ s.running then (items.get? i).map task else none)

/-- Full invariant of reachable pool states: reachable states are images of
`fill`, so on top of `PrePoolInv` no slot is left free while items remain. -/
structure PoolInv (items : List α) (limit : ℕ) (task : α → Except ε ρ)
    (s : PoolState ε ρ) extends PrePoolInv items limit task s : Prop where
  saturated : ¬(s.running.length < limit ∧ s.nextIdx < items.length)

/-- Termination measure of a pool run: undispatched items count twice (they
must be dispatched and settled), in-flight tasks once. -/
def poolMeasure (n : ℕ) (s : PoolState ε ρ) : ℕ :=
  2 * (n - s.nextIdx) + s.running.length

/-! ### D6: statistics aggregation and batch orchestration
(cli.mjs lines 503–660)

The batch loop of `main` is modelled per non-dry run.  External effects are
abstracted as oracles, all quantified universally in the theorems:

* `order b` — the processing order of the files in batch `b`.  It absorbs both
  the per-batch `shuffle` (line 542) and the pool's completion interleaving:
  single-threaded JS runs the stats updates of a batch in some sequential
  order, one per file, and the theorems hold for every order.
* `oracle b i` — the outcome of the upload attempt for position `i` of batch
  `b`: an HTTP response (with its `ok` flag, measured duration and optional
  timing phases) or a transport exception.
* `leftover b` — the `reqMap` entries created by the diagnostics handlers
  during batch `b` and not consumed by `collectTimings` (requests that never
  completed), present when the sweep of line 657 runs.
* `sweepT b` — the `performance.now()` instant of batch `b`'s sweep.

A file asset carries the name and size used by the stats keying (the path
plays no role in aggregation). -/

/-- A file asset as selected by the discovery step. -/
structure FileAsset where
  name : String
  size : ℕ
deriving DecidableEq, Repr

/-- A per-file stats bucket (cli.mjs lines 510–519). -/
structure Bucket where
  size : ℕ
  ok : ℕ
  fail : ℕ
  durations : List ℤ
  uploadMs : List ℤ
  ttfbMs : List ℤ
  connectMs : List ℤ
deriving DecidableEq, Repr

/-- The fresh bucket installed on first sight of a key (cli.mjs line 511). -/
def emptyBucket (size : ℕ) : Bucket := ⟨size, 0, 0, [], [], [], []⟩

/-- The argument record of `pushStats`: `{ ok, durationMs, timings }`
(cli.mjs lines 600–604 and 644).  `durationMs` is `none` when the field is
absent (`Number.isFinite(undefined)` is false); `timings` is `none` for
`null`/absent and `some` for an object. -/
structure StatRec where
  ok : Bool
  durationMs : Option ℤ
  timings : Option Timings
deriving Repr

/-- The empty object `{}` of `rec.timings || {}` (cli.mjs line 525): every
field reads as `undefined`. -/
def emptyTimings : Timings := ⟨none, none, none, none, none, none, none, none, none⟩

/-- `perFile.get(key)` (a JS `Map` keyed by file name). -/
def lookupBucket (m : List (String × Bucket)) (key : String) : Option Bucket :=
  (m.find? (fun p => p.1 == key)).map (fun p => p.2)

/-- `perFile.set(key, bucket)` for a key already present: replace the (first,
and with unique keys only) binding of `key`. -/
def replaceBucket : List (String × Bucket) → String → Bucket → List (String × Bucket)
  | [], _, _ => []
  | (k, v) :: rest, key, b =>
    if k = key then (k, b) :: rest else (k, v) :: replaceBucket rest key b

/-- `Set.prototype.add` on a duplicate-free list. -/
def setAdd (s : List String) (x : String) : List String :=
  if x ∈ s then s else s ++ [x]

/-- The bucket mutation block of `pushStats` (cli.mjs lines 521–528): bump
`ok` or `fail`, then append each finite sample. -/
def bumpBucket (rec : StatRec) (t : Timings) (s : Bucket) : Bucket :=
  let s := if rec.ok then { s with ok := s.ok + 1 } else { s with fail := s.fail + 1 }
  let s := match rec.durationMs with
    | some d => { s with durations := s.durations ++ [d] }
    | none => s
  let s := match t.uploadMs with
    | some v => { s with uploadMs := s.uploadMs ++ [v] }
    | none => s
  let s := match t.ttfbMs with
    | some v => { s with ttfbMs := s.ttfbMs ++ [v] }
    | none => s
  match t.connectMs with
  | some v => { s with connectMs := s.connectMs ++ [v] }
  | none => s

/-- Mutable state of one (non-dry) run of `main`: the stats collectors of
lines 504–507, the totals of lines 534–535, and the correlator's `reqMap`. -/
structure RunAgg where
  perFile : List (String × Bucket)
  alpnSet : List String
  remoteIps : List String
  exceptions : ℕ
  totalOk : ℕ
  totalTried : ℕ
  reqMap : List (ℕ × TraceRecord)
deriving Repr

/-- State at the start of the run: empty collectors, zero totals, empty map. -/
def initAgg : RunAgg := ⟨[], [], [], 0, 0, 0, []⟩

/-- `pushStats(map, key, size, rec)` (cli.mjs lines 509–532): install a fresh
bucket if the key is new, mutate the bucket, and collect the connection info
into the global sets (a string field is truthy when present and nonempty). -/
def pushStats (st : RunAgg) (key : String) (size : ℕ) (rec : StatRec) : RunAgg :=
  let m0 := if (lookupBucket st.perFile key).isSome then st.perFile
    else st.perFile ++ [(key, emptyBucket size)]
  let s0 := (lookupBucket m0 key).getD (emptyBucket size)
  let t := rec.timings.getD emptyTimings
  { st with
    perFile := replaceBucket m0 key (bumpBucket rec t s0)
    alpnSet := match t.alpn with
      | some a => if a = "" then st.alpnSet else setAdd st.alpnSet a
      | none => st.alpnSet
    remoteIps := match t.remoteIp with
      | some ip => if ip = "" then st.remoteIps else setAdd st.remoteIps ip
      | none => st.remoteIps }

/-- Outcome of one upload attempt, as seen by the task of cli.mjs
lines 544–646: an HTTP response (lines 550–606) or a thrown transport
exception (lines 607–645). -/
inductive AttemptResult where
  | response (ok : Bool) (durationMs : ℤ) (timings : Option Timings)
  | exception
deriving Repr

/-- Stats effect of one attempt: the response path calls `pushStats` with
`{ok, durationMs, timings}` (line 600); the exception path records the
exception and calls `pushStats` with `{ok: false, timings: {}}` (lines 625,
644).  The returned flag is the task's `{ ok }` result (lines 606, 645). -/
def processAttempt (st : RunAgg) (f : FileAsset) (r : AttemptResult) : RunAgg × Bool :=
  match r with
  | .response ok d tm => (pushStats st f.name f.size ⟨ok, some d, tm⟩, ok)
  | .exception =>
    (pushStats { st with exceptions := st.exceptions + 1 } f.name f.size
      ⟨false, none, some emptyTimings⟩, false)

/-- Process the attempts of one batch in their completion order, returning the
updated state and the batch's `okCount` (cli.mjs line 649). -/
def runFiles (oracle : ℕ → AttemptResult) :
    List (ℕ × FileAsset) → RunAgg → RunAgg × ℕ
  | [], st => (st, 0)
  | (i, f) :: rest, st =>
    let pr := processAttempt st f (oracle i)
    let rr := runFiles oracle rest pr.1
    (rr.1, (if pr.2 then 1 else 0) + rr.2)

/-- One iteration of the batch loop (cli.mjs lines 537–659): process the
batch's files, add `okCount` to `totalOk` and the batch size to `totalTried`
(lines 650–651), then run the stale-trace sweep (line 657) over the `reqMap`
as left by the batch's requests.  The inter-batch delay has no state effect. -/
def batchStep (order : ℕ → List FileAsset) (oracle : ℕ → ℕ → AttemptResult)
    (leftover : ℕ → List (ℕ × TraceRecord)) (sweepT : ℕ → ℚ)
    (st : RunAgg) (b : ℕ) : RunAgg :=
  let bf := order b
  let res := runFiles (oracle b) bf.enum st
  { res.1 with
    totalOk := res.1.totalOk + res.2
    totalTried := res.1.totalTried + bf.length
    reqMap := cleanupOrphanedTraces (sweepT b) (res.1.reqMap ++ leftover b) }

/-- Run state after the first `k` batches of a non-dry run. -/
def stateAfter (order : ℕ → List FileAsset) (oracle : ℕ → ℕ → AttemptResult)
    (leftover : ℕ → List (ℕ × TraceRecord)) (sweepT : ℕ → ℚ) (k : ℕ) : RunAgg :=
  (List.range k).foldl (batchStep order oracle leftover sweepT) initAgg

/-- The trace map at the moment the sweep of batch `b` runs: the map left by
the previous batches plus the records created during batch `b` and never
consumed. -/
def preSweepTraces (order : ℕ → List FileAsset) (oracle : ℕ → ℕ → AttemptResult)
    (leftover : ℕ → List (ℕ × TraceRecord)) (sweepT : ℕ → ℚ) (b : ℕ) :
    List (ℕ × TraceRecord) :=
  (stateAfter order oracle leftover sweepT b).reqMap ++ leftover b

/-- Sum of the `ok` counters over all per-file buckets. -/
def sumOk (m : List (String × Bucket)) : ℕ := (m.map (fun p => p.2.ok)).sum

/-- Sum of the `fail` counters over all per-file buckets. -/
def sumFail (m : List (String × Bucket)) : ℕ := (m.map (fun p => p.2.fail)).sum

/-! ### D7: the run log of the dry-run scenario

`cli.mjs` handles `--dry` by exiting right after the start record (line 501).
The planned-record behavior described by the spec lives in the legacy variant
(the unnamed source file, lines 180–232 of its `main`), which is modelled
separately: for each batch, either one `dry-run` log record per file
(durationMs 0, no fetch), or one fetch invocation per file followed by its
outcome record. -/

/-- One event of a run's observable log/effect stream.  `netInvoke` marks a
`fetch` call (an upload network invocation); the other constructors are the
written log records (`logDry` is a `status: 'dry-run'` record with its
`durationMs`). -/
inductive Ev where
  | logStart (dry : Bool)
  | logDry (batch : ℕ) (file : String) (durationMs : ℤ)
  | netInvoke (batch : ℕ) (file : String)
  | logUpload (batch : ℕ) (file : String) (status : String)
  | logBatchEnd (batch : ℕ)
  | logEnd
deriving DecidableEq, Repr

/-- Outcome oracle for the legacy uploader: an HTTP response or a thrown
exception. -/
inductive LegacyOutcome where
  | response (ok : Bool)
  | exception
deriving Repr

/-- Events for one file of one legacy batch (legacy main, lines 186–227):
in a dry batch one `dry-run` record with `durationMs: 0`; otherwise a fetch
invocation followed by the outcome record (`ok`/`error`/`exception`). -/
def legacyFileEvents (oracle : ℕ → String → LegacyOutcome) (bNo : ℕ) (dry : Bool)
    (f : FileAsset) : List Ev :=
  if dry then [.logDry bNo f.name 0]
  else .netInvoke bNo f.name ::
    (match oracle bNo f.name with
     | .response ok => [.logUpload bNo f.name (if ok then "ok" else "error")]
     | .exception => [.logUpload bNo f.name "exception"])

/-- Events of one legacy batch, ending in its `batch_end` record (legacy main,
lines 185–235). -/
def legacyBatch (files : List FileAsset) (dry : Bool)
    (oracle : ℕ → String → LegacyOutcome) (bNo : ℕ) : List Ev :=
  (files.bind (legacyFileEvents oracle bNo dry)) ++ [.logBatchEnd bNo]

/-- Event stream of a legacy run (legacy main, lines 178–242): the start
record, the batches numbered 1..B, and the end record. -/
def legacyEvents (files : List FileAsset) (batches : ℕ) (dry : Bool)
    (oracle : ℕ → String → LegacyOutcome) : List Ev :=
  .logStart dry :: ((List.range batches).bind
    (fun b => legacyBatch files dry oracle (b + 1))) ++ [.logEnd]

/-- Event stream of a `cli.mjs` dry run (cli.mjs lines 420–501): the start
record is written (line 482) and `if (dry) process.exit(0)` (line 501) ends
the process before the batch loop — no network invocation and no further
records.  The config surface (`files`, `batches`) is accepted but never
reaches a batch. -/
def cliDryEvents (files : List FileAsset) (batches : ℕ) : List Ev :=
  [.logStart true]

/-- Is this event the `dry-run` (planned) record of batch `b`, file `name`,
with `durationMs` 0? -/
def isPlanned (b : ℕ) (name : String) : Ev → Bool
  | .logDry b' n' d => b' == b && n' == name && d == 0
  | _ => false

/-- Is this event a network invocation? -/
def isInvoke : Ev → Bool
  | .netInvoke _ _ => true
  | _ => false

end CldBench

namespace CldBench

/-! ### Theorems -/

/-- The sample list of the spec is already sorted, so the model's sort fixes it. -/
theorem sort_sample : List.insertionSort (· ≤ ·) [(10:ℚ),20,30,40] = [10,20,30,40] :=
  List.Sorted.insertionSort_eq (by norm_num [List.sorted_cons])

/-- C1 (counterexample): for the sample list `[10, 20, 30, 40]` the code computes
p95 = 39, not 38.5: the linearly interpolated rank value 38.5 is passed through
`Math.round` (cli.mjs line 394) before being returned. -/
theorem claim_c1_counterexample :
    (summarize [10,20,30,40]).p95 = some 39 ∧ ((39 : ℚ) ≠ 77/2) := by
  constructor
  · simp only [summarize, percentile, jround, sort_sample]
    norm_num [show Int.toNat 2 = 2 from rfl, List.getD]
  · norm_num

/-- C1 (amended): for the sample list `[10, 20, 30, 40]`, the computed p50 is 25
and the computed p95 is 39 (the interpolated value `38.5` at fractional rank
`p/100 * (n-1)` is rounded by `Math.round`); for an empty sample list,
`summarize` returns count = 0 and null for avg, p50, p95, min and max. -/
theorem claim_c1 :
    (summarize [10,20,30,40]).p50 = some 25 ∧
    (summarize [10,20,30,40]).p95 = some 39 ∧
    summarize [] = ⟨0, none, none, none, none, none⟩ := by
  refine ⟨?_, ?_, ?_⟩
  · simp only [summarize, percentile, jround, sort_sample]
    norm_num [show Int.toNat 1 = 1 from rfl, List.getD]
  · simp only [summarize, percentile, jround, sort_sample]
    norm_num [show Int.toNat 2 = 2 from rfl, List.getD]
  · simp [summarize]

/-- Prepending a list element to a one-point mutation of the list permutes
the original with the new value prepended. -/
theorem get_cons_set_perm :
    ∀ (xs : List α) (k : ℕ) (hk : k < xs.length) (x : α),
      List.Perm ((xs.get ⟨k, hk⟩) :: xs.set k x) (x :: xs) := by
  intro xs
  induction xs with
  | nil => intro k hk; simp at hk
  | cons y ys ih =>
    intro k hk x
    cases k with
    | zero => simpa using List.Perm.swap x y ys
    | succ k =>
      have hk' : k < ys.length := by simpa using hk
      have h1 : List.Perm (ys.get ⟨k, hk'⟩ :: y :: ys.set k x)
          (y :: ys.get ⟨k, hk'⟩ :: ys.set k x) := List.Perm.swap _ _ _
      have h2 : List.Perm (y :: ys.get ⟨k, hk'⟩ :: ys.set k x) (y :: x :: ys) :=
        (ih k hk' x).cons y
      have h3 : List.Perm (y :: x :: ys) (x :: y :: ys) := List.Perm.swap _ _ _
      simpa using (h1.trans h2).trans h3

/-- Swapping two positions of a list permutes it. -/
theorem set_set_perm :
    ∀ (l : List α) (i j : ℕ) (hi : i < l.length) (hj : j < l.length),
      List.Perm ((l.set i (l.get ⟨j, hj⟩)).set j (l.get ⟨i, hi⟩)) l := by
  intro l
  induction l with
  | nil => intro i j hi; simp at hi
  | cons x xs ih =>
    intro i j hi hj
    cases i with
    | zero =>
      cases j with
      | zero => simp
      | succ j =>
        have hj' : j < xs.length := by simpa using hj
        simpa using get_cons_set_perm xs j hj' x
    | succ i =>
      have hi' : i < xs.length := by simpa using hi
      cases j with
      | zero =>
        simpa using get_cons_set_perm xs i hi' x
      | succ j =>
        have hj' : j < xs.length := by simpa using hj
        simpa using (ih i j hi' hj').cons x

/-- `swapL` permutes its argument, for any indices. -/
theorem swapL_perm (l : List α) (i j : ℕ) : List.Perm (swapL l i j) l := by
  unfold swapL
  split
  · next h => exact set_set_perm l i j h.1 h.2
  · exact List.Perm.refl l

/-- Each pass of the Fisher–Yates loop permutes its argument. -/
theorem fyLoop_perm (rand : ℕ → ℕ) : ∀ (i : ℕ) (b : List α), List.Perm (fyLoop rand i b) b := by
  intro i
  induction i with
  | zero => intro b; exact List.Perm.refl b
  | succ i ih =>
    intro b
    exact (ih _).trans (swapL_perm b (i+1) (rand (i+1) % (i+2)))

/-- Looking a key up after deleting it finds nothing. -/
theorem mapGet_mapDelete (m : List (ℕ × TraceRecord)) (k : ℕ) :
    mapGet (mapDelete m k) k = none := by
  unfold mapGet mapDelete
  have h : List.find? (fun p => p.1 == k) (List.filter (fun p => p.1 != k) m) = none := by
    apply List.find?_eq_none.mpr
    intro x hx
    have hne := (List.mem_filter.mp hx).2
    simpa using hne
  rw [h]
  rfl

/-- C6: `collectTimings` consumes a trace record at most once.  If the map
holds a live record for `traceId`, the call returns its timings and deletes
the record, so a second call for the same id returns `null` and leaves the
map unchanged; a call for an id with no live record returns `null` with the
map unchanged (and, being a total function, never raises). -/
theorem claim_c6 (m : List (ℕ × TraceRecord)) (traceId : ℕ) :
    (∀ r, mapGet m traceId = some r →
      (collectTimings m traceId).1 = some (mkTimings r) ∧
      mapGet (collectTimings m traceId).2 traceId = none ∧
      collectTimings (collectTimings m traceId).2 traceId =
        (none, (collectTimings m traceId).2)) ∧
    (mapGet m traceId = none → collectTimings m traceId = (none, m)) := by
  constructor
  · intro r hr
    have h1 : collectTimings m traceId = (some (mkTimings r), mapDelete m traceId) := by
      simp [collectTimings, hr]
    have h2 : mapGet (mapDelete m traceId) traceId = none := mapGet_mapDelete m traceId
    refine ⟨by rw [h1], by rw [h1]; exact h2, ?_⟩
    rw [h1]
    simp [collectTimings, h2]
  · intro h
    simp [collectTimings, h]

/-- C6 witness: on the concrete map `[(1, r)]`, the first collection returns
the timings and the second returns `null`. -/
theorem claim_c6_witness :
    (collectTimings [(1, ({ createdAt := some 5 } : TraceRecord))] 1).1 =
      some (mkTimings { createdAt := some 5 }) ∧
    mapGet (collectTimings [(1, ({ createdAt := some 5 } : TraceRecord))] 1).2 1 = none ∧
    collectTimings ([] : List (ℕ × TraceRecord)) 2 = (none, []) := by
  have h := claim_c6 [(1, ({ createdAt := some 5 } : TraceRecord))] 1
  have h1 := h.1 { createdAt := some 5 } rfl
  exact ⟨h1.1, h1.2.1, (claim_c6 [] 2).2 rfl⟩

/-- A derived phase with both endpoints present and nonzero is the rounded
difference. -/
theorem phase_eq_round (x y : ℚ) (hx : x ≠ 0) (hy : y ≠ 0) :
    phase (some x) (some y) = some (jround (x - y)) := by
  simp [phase, hx, hy]

/-- A derived phase with a missing or zero endpoint is `null`. -/
theorem phase_eq_none (a b : Option ℚ)
    (h : a = none ∨ a = some 0 ∨ b = none ∨ b = some 0) :
    phase a b = none := by
  rcases h with h | h | h | h
  · subst h; cases b <;> simp [phase]
  · subst h; cases b <;> simp [phase]
  · subst h; cases a <;> simp [phase]
  · subst h; cases a <;> simp [phase]

/-- C7 (counterexample): the claim "each phase equals the difference of its two
endpoints and is null only when an endpoint is missing" fails twice.  With
`createdAt = 0` and `sendHeadersAt = 5` both endpoints are present, yet the
code yields `queueMs = null` (JS truthiness treats the timestamp `0` as
missing); and with `createdAt = 1/2`, `sendHeadersAt = 2` the code yields
`queueMs = 2`, not the difference `3/2` (the difference is passed through
`Math.round`). -/
theorem claim_c7_counterexample :
    (mkTimings { createdAt := some 0, sendHeadersAt := some 5 }).queueMs = none ∧
    (mkTimings { createdAt := some (1/2), sendHeadersAt := some 2 }).queueMs = some 2 ∧
    ((2 : ℚ) ≠ 2 - 1/2) := by
  refine ⟨by simp [mkTimings, phase], ?_, by norm_num⟩
  show phase (some 2) (some (1/2)) = some 2
  rw [phase_eq_round 2 (1/2) (by norm_num) (by norm_num)]
  norm_num [jround]

/-- C7 (amended): each derived phase equals `Math.round` of the difference of
its two endpoint timestamps — queueMs = sendHeadersAt − createdAt, uploadMs =
bodySentAt − sendHeadersAt, ttfbMs = headersAt − bodySentAt, downloadMs =
doneAt − headersAt, connectMs = sendHeadersAt − connectAt — whenever both
endpoints are present and nonzero, and is null whenever either endpoint is
missing or equal to 0 (the code tests the timestamps for JS truthiness). -/
theorem claim_c7 (r : TraceRecord) :
    (∀ x y, r.sendHeadersAt = some x → r.createdAt = some y → x ≠ 0 → y ≠ 0 →
        (mkTimings r).queueMs = some (jround (x - y))) ∧
    ((r.sendHeadersAt = none ∨ r.sendHeadersAt = some 0 ∨
      r.createdAt = none ∨ r.createdAt = some 0) → (mkTimings r).queueMs = none) ∧
    (∀ x y, r.bodySentAt = some x → r.sendHeadersAt = some y → x ≠ 0 → y ≠ 0 →
        (mkTimings r).uploadMs = some (jround (x - y))) ∧
    ((r.bodySentAt = none ∨ r.bodySentAt = some 0 ∨
      r.sendHeadersAt = none ∨ r.sendHeadersAt = some 0) → (mkTimings r).uploadMs = none) ∧
    (∀ x y, r.headersAt = some x → r.bodySentAt = some y → x ≠ 0 → y ≠ 0 →
        (mkTimings r).ttfbMs = some (jround (x - y))) ∧
    ((r.headersAt = none ∨ r.headersAt = some 0 ∨
      r.bodySentAt = none ∨ r.bodySentAt = some 0) → (mkTimings r).ttfbMs = none) ∧
    (∀ x y, r.doneAt = some x → r.headersAt = some y → x ≠ 0 → y ≠ 0 →
        (mkTimings r).downloadMs = some (jround (x - y))) ∧
    ((r.doneAt = none ∨ r.doneAt = some 0 ∨
      r.headersAt = none ∨ r.headersAt = some 0) → (mkTimings r).downloadMs = none) ∧
    (∀ x y, r.sendHeadersAt = some x → r.connectAt = some y → x ≠ 0 → y ≠ 0 →
        (mkTimings r).connectMs = some (jround (x - y))) ∧
    ((r.sendHeadersAt = none ∨ r.sendHeadersAt = some 0 ∨
      r.connectAt = none ∨ r.connectAt = some 0) → (mkTimings r).connectMs = none) := by
  refine ⟨?_, ?_, ?_, ?_, ?_, ?_, ?_, ?_, ?_, ?_⟩ <;>
    first
    | (intro x y hx hy hx0 hy0
       simp only [mkTimings]
       rw [hx, hy, phase_eq_round x y hx0 hy0])
    | (intro h
       simp only [mkTimings]
       exact phase_eq_none _ _ h)

/-- C7 witness: a fully populated record yields every rounded phase, and a
zero `createdAt` yields a null `queueMs`. -/
theorem claim_c7_witness :
    (mkTimings { createdAt := some 1, sendHeadersAt := some 3, bodySentAt := some 10,
                 headersAt := some 20, doneAt := some 26, connectAt := some 2 }).queueMs =
      some (jround (3 - 1)) ∧
    (mkTimings { createdAt := some 1, sendHeadersAt := some 3, bodySentAt := some 10,
                 headersAt := some 20, doneAt := some 26, connectAt := some 2 }).connectMs =
      some (jround (3 - 2)) ∧
    (mkTimings { createdAt := some 0, sendHeadersAt := some 3 }).queueMs = none := by
  refine ⟨?_, ?_, ?_⟩
  · exact (claim_c7 _).1 3 1 rfl rfl (by norm_num) (by norm_num)
  · exact (claim_c7 _).2.2.2.2.2.2.2.2.1 3 2 rfl rfl (by norm_num) (by norm_num)
  · exact (claim_c7 _).2.1 (Or.inr (Or.inr (Or.inr rfl)))

/-- C10: for every input list and every sequence of random draws, `shuffle`
returns a permutation of the input — the same elements with the same
multiplicities — so each batch of the run is presented the same file assets.
The input list itself is untouched: the JS code copies it with `slice()`
before swapping, and the model is a pure function of the input. -/
theorem claim_c10 [DecidableEq α] (a : List α) (rand : ℕ → ℕ) :
    List.Perm (shuffle rand a) a ∧ ∀ x : α, (shuffle rand a).count x = a.count x := by
  have h : List.Perm (shuffle rand a) a := fyLoop_perm rand (a.length - 1) a
  exact ⟨h, fun x => h.count_eq x⟩

/-- Unfolding `fill` when a task can be dispatched. -/
theorem fill_pos (n limit : ℕ) (s : PoolState ε ρ)
    (h : s.running.length < limit ∧ s.nextIdx < n) :
    fill n limit s = fill n limit ⟨s.nextIdx + 1, s.running ++ [s.nextIdx], s.ret⟩ := by
  conv_lhs => rw [fill]
  rw [dif_pos h]

/-- Unfolding `fill` when no task can be dispatched. -/
theorem fill_neg (n limit : ℕ) (s : PoolState ε ρ)
    (h : ¬(s.running.length < limit ∧ s.nextIdx < n)) :
    fill n limit s = s := by
  conv_lhs => rw [fill]
  rw [dif_neg h]

/-- On exit of the dispatch loop, either the limit is saturated or all items
have been dispatched. -/
theorem fill_saturated (n limit : ℕ) (s : PoolState ε ρ) :
    ¬((fill n limit s).running.length < limit ∧ (fill n limit s).nextIdx < n) := by
  refine fill.induct n limit
    (fun t => ¬((fill n limit t).running.length < limit ∧ (fill n limit t).nextIdx < n))
    ?_ ?_ s
  · intro x hcond ih
    rw [fill_pos n limit x hcond]
    exact ih
  · intro x hcond
    rw [fill_neg n limit x hcond]
    exact hcond

/-- Dispatching one task preserves the pool invariant. -/
theorem preInv_dispatch (items : List α) (limit : ℕ) (task : α → Except ε ρ)
    (s : PoolState ε ρ) (hlen : s.running.length < limit) (hidx : s.nextIdx < items.length)
    (hinv : PrePoolInv items limit task s) :
    PrePoolInv items limit task ⟨s.nextIdx + 1, s.running ++ [s.nextIdx], s.ret⟩ := by
  constructor <;> dsimp only
  · intro j hj
    rcases List.mem_append.mp hj with hj | hj
    · exact Nat.lt_succ_of_lt (hinv.running_lt j hj)
    · rw [List.mem_singleton.mp hj]; exact Nat.lt_succ_self _
  · rw [List.nodup_append]
    refine ⟨hinv.nodup, List.nodup_singleton _, ?_⟩
    intro a ha hb
    rw [List.mem_singleton.mp hb] at ha
    exact absurd (hinv.running_lt _ ha) (lt_irrefl _)
  · omega
  · rw [List.length_append, List.length_singleton]; omega
  · exact hinv.ret_len
  · intro i hi
    have old := hinv.slots i hi
    have hiff : (i < s.nextIdx + 1 ∧ i ∉ s.running ++ [s.nextIdx]) ↔
        (i < s.nextIdx ∧ i ∉ s.running) := by
      constructor
      · rintro ⟨h1, h2⟩
        rw [List.mem_append, List.mem_singleton] at h2
        push_neg at h2
        exact ⟨by omega, h2.1⟩
      · rintro ⟨h1, h2⟩
        refine ⟨by omega, ?_⟩
        rw [List.mem_append, List.mem_singleton]
        push_neg
        exact ⟨h2, by omega⟩
    rw [old]
    simp only [hiff]

/-- The dispatch loop preserves the pool invariant. -/
theorem fill_preInv (items : List α) (limit : ℕ) (task : α → Except ε ρ)
    (s : PoolState ε ρ) :
    PrePoolInv items limit task s →
      PrePoolInv items limit task (fill items.length limit s) := by
  refine fill.induct items.length limit
    (fun t => PrePoolInv items limit task t →
      PrePoolInv items limit task (fill items.length limit t))
    ?_ ?_ s
  · intro x hcond ih hx
    rw [fill_pos items.length limit x hcond]
    exact ih (preInv_dispatch items limit task x hcond.1 hcond.2 hx)
  · intro x hcond hx
    rw [fill_neg items.length limit x hcond]
    exact hx

/-- Settling one in-flight task preserves the pool invariant. -/
theorem preInv_settle (items : List α) (limit : ℕ) (task : α → Except ε ρ)
    (s : PoolState ε ρ) (j : ℕ) (hj : j ∈ s.running)
    (hinv : PrePoolInv items limit task s) :
    PrePoolInv items limit task
      ⟨s.nextIdx, s.running.erase j, s.ret.set j ((items.get? j).map task)⟩ := by
  have hjlt : j < s.nextIdx := hinv.running_lt j hj
  constructor <;> dsimp only
  · intro i hi
    exact hinv.running_lt i (List.mem_of_mem_erase hi)
  · exact List.Nodup.erase j hinv.nodup
  · exact hinv.idx_le
  · calc (s.running.erase j).length = s.running.length - 1 := List.length_erase_of_mem hj
      _ ≤ limit := by have := hinv.count_le; omega
  · rw [List.length_set]; exact hinv.ret_len
  · intro i hi
    by_cases hij : i = j
    · subst hij
      have hlen : i < s.ret.length := by rw [hinv.ret_len]; omega
      rw [List.get?_set_eq_of_lt _ hlen]
      have hcond : i < s.nextIdx ∧ i ∉ s.running.erase i :=
        ⟨hjlt, List.Nodup.not_mem_erase hinv.nodup⟩
      rw [if_pos hcond]
    · rw [List.get?_set_ne _ _ (Ne.symm hij)]
      have old := hinv.slots i hi
      have hiff : (i < s.nextIdx ∧ i ∉ s.running.erase j) ↔
          (i < s.nextIdx ∧ i ∉ s.running) := by
        rw [List.mem_erase_of_ne hij]
      rw [old]
      simp only [hiff]

/-- Every reachable pool state satisfies the invariant. -/
theorem reach_inv (items : List α) (limit : ℕ) (task : α → Except ε ρ)
    (s : PoolState ε ρ) (hr : PoolReach items limit task s) :
    PoolInv items limit task s := by
  induction hr with
  | init =>
    have pre0 : PrePoolInv items limit task ⟨0, [], List.replicate items.length none⟩ := by
      constructor <;> dsimp only
      · intro j hj; simp at hj
      · exact List.nodup_nil
      · exact Nat.zero_le _
      · simp
      · simp
      · intro i hi
        have : (List.replicate items.length (none : Option (Except ε ρ))).get? i = some none := by
          simp [List.get?_eq_getElem?, List.getElem?_replicate, hi]
        rw [this, if_neg]
        rintro ⟨h1, _⟩
        omega
    exact ⟨fill_preInv items limit task _ pre0, fill_saturated _ _ _⟩
  | step hr hs ih =>
    cases hs with
    | settle j hj =>
      exact ⟨fill_preInv items limit task _
          (preInv_settle items limit task _ j hj ih.toPrePoolInv),
        fill_saturated _ _ _⟩

/-- C3: in a pool run with limit ≥ 1 (after the normalization of cli.mjs
line 255), no reachable instant has more than `limit` tasks in flight —
started (dispatched) but not yet settled. -/
theorem claim_c3 (items : List α) (lim : ℤ) (task : α → Except ε ρ)
    (s : PoolState ε ρ) (hlim : 1 ≤ lim)
    (hr : PoolReach items (normLimit items.length lim) task s) :
    (s.running.length : ℤ) ≤ lim := by
  have hcount := (reach_inv _ _ _ _ hr).count_le
  have hnl : normLimit items.length lim = lim.toNat := by
    unfold normLimit
    rw [if_neg]
    omega
  rw [hnl] at hcount
  omega

/-- C3 witness: the initial state of a concrete run with limit 2 has at most
2 tasks in flight. -/
theorem claim_c3_witness :
    (((fill (List.length ([10,20,30] : List ℕ))
        (normLimit (List.length ([10,20,30] : List ℕ)) 2)
        ⟨0, [], List.replicate (List.length ([10,20,30] : List ℕ)) none⟩ :
          PoolState Unit ℕ)).running.length : ℤ) ≤ 2 :=
  claim_c3 [10,20,30] 2 (fun a => Except.ok a) _ (by norm_num) PoolReach.init

/-- In every completed pool run, slot `i` of the result list holds the outcome
of the task on item `i`. -/
theorem pool_done_ret (items : List α) (limit : ℕ) (task : α → Except ε ρ)
    (s : PoolState ε ρ) (hr : PoolReach items limit task s)
    (hd : PoolDone items.length s) :
    s.ret = items.map (fun a => some (task a)) := by
  have hinv := reach_inv _ _ _ _ hr
  apply List.ext_get?
  intro i
  by_cases hi : i < items.length
  · have hslot := hinv.slots i hi
    have hcond : i < s.nextIdx ∧ i ∉ s.running := by
      refine ⟨by have := hd.1; omega, ?_⟩
      rw [hd.2]
      exact List.not_mem_nil i
    rw [hslot, if_pos hcond, List.get?_map, List.get?_eq_get hi]
    rfl
  · have h1 : s.ret.get? i = none := List.get?_len_le (by rw [hinv.ret_len]; omega)
    have h2 : (items.map (fun a => some (task a))).get? i = none :=
      List.get?_len_le (by rw [List.length_map]; omega)
    rw [h1, h2]

/-- C4: every completed pool run returns a list of outcomes of the same length
as `items` in which slot `i` is the outcome of the task applied to `items[i]`,
whatever order the tasks settled in; and a limit < 1 is normalized to
`items.length` (unbounded). -/
theorem claim_c4 (items : List α) (lim : ℤ) (task : α → Except ε ρ) :
    (∀ s : PoolState ε ρ, PoolReach items (normLimit items.length lim) task s →
        PoolDone items.length s → s.ret = items.map (fun a => some (task a))) ∧
    (lim < 1 → normLimit items.length lim = items.length) := by
  constructor
  · intro s hr hd
    exact pool_done_ret items (normLimit items.length lim) task s hr hd
  · intro h
    unfold normLimit
    rw [if_pos h]

/-- C4 witness: a concrete two-item run with raw limit −3 (normalized to 2)
completes with each slot holding its own task's outcome. -/
theorem claim_c4_witness :
    (⟨2, [], [some (Except.ok 10), some (Except.ok 20)]⟩ : PoolState Unit ℕ).ret =
      ([10, 20] : List ℕ).map (fun a => some (Except.ok a)) ∧
    normLimit (List.length ([10, 20] : List ℕ)) (-3) = List.length ([10, 20] : List ℕ) := by
  constructor
  · have r0 : PoolReach ([10, 20] : List ℕ) 2 (fun a => (Except.ok a : Except Unit ℕ))
        (fill (List.length ([10, 20] : List ℕ)) 2
          ⟨0, [], List.replicate (List.length ([10, 20] : List ℕ)) none⟩) := PoolReach.init
    simp only [List.length_cons, List.length_nil, List.replicate] at r0
    have e0 : (fill 2 2 ⟨0, [], [none, none]⟩ : PoolState Unit ℕ) = ⟨2, [0, 1], [none, none]⟩ := by
      simp [fill]
    rw [e0] at r0
    have s1 := PoolReach.step r0 (PoolStep.settle _ 0 (by simp))
    have e1 : (fill (List.length ([10, 20] : List ℕ)) 2
        ⟨(⟨2, [0, 1], [none, none]⟩ : PoolState Unit ℕ).nextIdx,
          (⟨2, [0, 1], [none, none]⟩ : PoolState Unit ℕ).running.erase 0,
          (⟨2, [0, 1], [none, none]⟩ : PoolState Unit ℕ).ret.set 0
            ((([10, 20] : List ℕ).get? 0).map (fun a => (Except.ok a : Except Unit ℕ)))⟩) =
        ⟨2, [1], [some (Except.ok 10), none]⟩ := by
      simp [fill, List.erase]
    rw [e1] at s1
    have s2 := PoolReach.step s1 (PoolStep.settle _ 1 (by simp))
    have e2 : (fill (List.length ([10, 20] : List ℕ)) 2
        ⟨(⟨2, [1], [some (Except.ok 10), none]⟩ : PoolState Unit ℕ).nextIdx,
          (⟨2, [1], [some (Except.ok 10), none]⟩ : PoolState Unit ℕ).running.erase 1,
          (⟨2, [1], [some (Except.ok 10), none]⟩ : PoolState Unit ℕ).ret.set 1
            ((([10, 20] : List ℕ).get? 1).map (fun a => (Except.ok a : Except Unit ℕ)))⟩) =
        ⟨2, [], [some (Except.ok 10), some (Except.ok 20)]⟩ := by
      simp [fill, List.erase]
    rw [e2] at s2
    have hnl : normLimit (List.length ([10, 20] : List ℕ)) (-3) = 2 := by decide
    rw [← hnl] at s2
    exact (claim_c4 [10, 20] (-3) (fun a => (Except.ok a : Except Unit ℕ))).1 _ s2
      ⟨by norm_num, rfl⟩
  · exact (claim_c4 [10, 20] (-3) (fun a => (Except.ok a : Except Unit ℕ))).2 (by norm_num)

/-- From a reachable state that is not yet complete, some task is in flight. -/
theorem pool_progress (items : List α) (limit : ℕ) (task : α → Except ε ρ)
    (s : PoolState ε ρ) (hinv : PoolInv items limit task s)
    (hnd : ¬ PoolDone items.length s) (hlim : 0 < limit) :
    ∃ j, j ∈ s.running := by
  by_contra h
  push_neg at h
  have hrun : s.running = [] := List.eq_nil_iff_forall_not_mem.mpr h
  have hsat := hinv.saturated
  rw [hrun] at hsat
  simp only [List.length_nil] at hsat
  exact hnd ⟨by omega, hrun⟩

/-- The dispatch loop never increases the termination measure. -/
theorem fill_measure_le (n limit : ℕ) (s : PoolState ε ρ) :
    poolMeasure n (fill n limit s) ≤ poolMeasure n s := by
  refine fill.induct n limit
    (fun t => poolMeasure n (fill n limit t) ≤ poolMeasure n t) ?_ ?_ s
  · intro x hcond ih
    rw [fill_pos n limit x hcond]
    refine le_trans ih ?_
    unfold poolMeasure
    dsimp only
    simp only [List.length_append, List.length_singleton]
    omega
  · intro x hcond
    rw [fill_neg n limit x hcond]

/-- Settling a task strictly decreases the termination measure. -/
theorem settle_measure (n limit : ℕ) (s : PoolState ε ρ) (j : ℕ) (hj : j ∈ s.running)
    (v : Option (Except ε ρ)) :
    poolMeasure n (fill n limit ⟨s.nextIdx, s.running.erase j, s.ret.set j v⟩) <
      poolMeasure n s := by
  have h1 := fill_measure_le n limit
    (⟨s.nextIdx, s.running.erase j, s.ret.set j v⟩ : PoolState ε ρ)
  have h2 : (s.running.erase j).length = s.running.length - 1 := List.length_erase_of_mem hj
  have h3 : 0 < s.running.length := List.length_pos.mpr (List.ne_nil_of_mem hj)
  unfold poolMeasure at h1 ⊢
  simp only [h2] at h1
  omega

/-- Every pool run can run to completion: a completed state is reachable. -/
theorem pool_exists_done (items : List α) (lim : ℤ) (task : α → Except ε ρ) :
    ∃ s : PoolState ε ρ, PoolReach items (normLimit items.length lim) task s ∧
      PoolDone items.length s := by
  have aux : ∀ (k : ℕ) (s : PoolState ε ρ),
      PoolReach items (normLimit items.length lim) task s →
      poolMeasure items.length s ≤ k →
      ∃ s', PoolReach items (normLimit items.length lim) task s' ∧
        PoolDone items.length s' := by
    intro k
    induction k with
    | zero =>
      intro s hr hm
      unfold poolMeasure at hm
      have hrun : s.running = [] := List.length_eq_zero.mp (by omega)
      have hinv := reach_inv _ _ _ _ hr
      have hidx : items.length ≤ s.nextIdx := by
        have := hinv.idx_le
        omega
      exact ⟨s, hr, hidx, hrun⟩
    | succ k ih =>
      intro s hr hm
      by_cases hd : PoolDone items.length s
      · exact ⟨s, hr, hd⟩
      · have hinv := reach_inv _ _ _ _ hr
        have hlim : 0 < normLimit items.length lim := by
          rcases Nat.eq_zero_or_pos items.length with h0 | hpos
          · exfalso
            apply hd
            refine ⟨by omega, List.eq_nil_iff_forall_not_mem.mpr ?_⟩
            intro j hj
            have h1 := hinv.running_lt j hj
            have h2 := hinv.idx_le
            omega
          · unfold normLimit
            split
            · omega
            · rename_i hge
              omega
        obtain ⟨j, hj⟩ := pool_progress items _ task s hinv hd hlim
        refine ih _ (PoolReach.step hr (PoolStep.settle s j hj)) ?_
        have := settle_measure items.length (normLimit items.length lim) s j hj
          ((items.get? j).map task)
        omega
  exact aux (poolMeasure items.length
      (fill items.length (normLimit items.length lim)
        ⟨0, [], List.replicate items.length none⟩))
    _ PoolReach.init (le_refl _)

/-- C5: a failing task does not cancel sibling tasks or halt the pool.  If the
task rejects on item `i`, then in every completed run slot `i` is the
rejection while every other slot `j` holds the task's outcome for `items[j]`
exactly as if no failure had occurred; and a completed state is always
reachable (the pool runs to completion over all items). -/
theorem claim_c5 (items : List α) (lim : ℤ) (task : α → Except ε ρ)
    (i : ℕ) (a : α) (e : ε) (ha : items.get? i = some a)
    (he : task a = Except.error e) :
    (∀ s : PoolState ε ρ, PoolReach items (normLimit items.length lim) task s →
        PoolDone items.length s →
        s.ret.get? i = some (some (Except.error e)) ∧
        ∀ j, j < items.length → j ≠ i →
          s.ret.get? j = some ((items.get? j).map task)) ∧
    ∃ s : PoolState ε ρ, PoolReach items (normLimit items.length lim) task s ∧
      PoolDone items.length s := by
  constructor
  · intro s hr hd
    have hret := pool_done_ret items (normLimit items.length lim) task s hr hd
    constructor
    · rw [hret, List.get?_map, ha]
      simp [he]
    · intro j hjlt hji
      rw [hret, List.get?_map, List.get?_eq_get hjlt]
      rfl
  · exact pool_exists_done items lim task

/-- C5 witness: with a task that rejects on item 0, a completed state is still
reachable in a concrete two-item run. -/
theorem claim_c5_witness :
    ∃ s : PoolState String ℕ,
      PoolReach [1, 2] (normLimit (List.length ([1, 2] : List ℕ)) 2)
        (fun n => if n = 1 then Except.error "boom" else Except.ok n) s ∧
      PoolDone (List.length ([1, 2] : List ℕ)) s :=
  (claim_c5 [1, 2] 2 (fun n => if n = 1 then Except.error "boom" else Except.ok n)
    0 1 "boom" rfl (by norm_num)).2

/-- `bumpBucket` adds exactly one attempt to `ok + fail`. -/
theorem bumpBucket_tot (rec : StatRec) (t : Timings) (s : Bucket) :
    (bumpBucket rec t s).ok + (bumpBucket rec t s).fail = s.ok + s.fail + 1 := by
  obtain ⟨rok, rdur, rtm⟩ := rec
  obtain ⟨tq, tu, tt, td, tc, t1, t2, t3, t4⟩ := t
  cases rok <;> cases rdur <;> cases tu <;> cases tt <;> cases tc <;>
    simp [bumpBucket] <;> omega

/-- Replacing the bucket found at `key` changes the ok/fail total by the
difference of the old and new buckets. -/
theorem replaceBucket_sum (key : String) (b : Bucket) :
    ∀ (m : List (String × Bucket)) (s : Bucket), lookupBucket m key = some s →
      sumOk (replaceBucket m key b) + sumFail (replaceBucket m key b) + (s.ok + s.fail)
        = sumOk m + sumFail m + (b.ok + b.fail) := by
  intro m
  induction m with
  | nil => intro s hs; simp [lookupBucket] at hs
  | cons p rest ih =>
    obtain ⟨k, v⟩ := p
    intro s hs
    by_cases hk : k = key
    · have hfind : lookupBucket ((k, v) :: rest) key = some v := by
        unfold lookupBucket
        rw [List.find?_cons_of_pos _ (by simpa using hk)]
        rfl
      rw [hfind] at hs
      have hsv : v = s := Option.some_injective _ hs
      subst hsv
      unfold replaceBucket
      rw [if_pos hk]
      unfold sumOk sumFail
      simp only [List.map_cons, List.sum_cons]
      omega
    · have hfind : lookupBucket ((k, v) :: rest) key = lookupBucket rest key := by
        unfold lookupBucket
        rw [List.find?_cons_of_neg _ (by simpa using hk)]
      rw [hfind] at hs
      have hrec := ih s hs
      unfold replaceBucket
      rw [if_neg hk]
      unfold sumOk sumFail at hrec ⊢
      simp only [List.map_cons, List.sum_cons]
      omega

/-- `find?` skips an initial segment in which nothing matches. -/
theorem find?_append_of_none {γ : Type} (p : γ → Bool) :
    ∀ (l1 l2 : List γ), List.find? p l1 = none →
      List.find? p (l1 ++ l2) = List.find? p l2 := by
  intro l1 l2
  induction l1 with
  | nil => intro _; rfl
  | cons a l ih =>
    intro h
    cases hpa : p a with
    | true => rw [List.find?_cons_of_pos _ hpa] at h; exact absurd h (by simp)
    | false =>
      rw [List.find?_cons_of_neg _ (by simp [hpa])] at h
      rw [List.cons_append, List.find?_cons_of_neg _ (by simp [hpa])]
      exact ih h

/-- `pushStats` counts exactly one attempt: it adds one to the total of `ok`
plus `fail` over all buckets. -/
theorem pushStats_sum (st : RunAgg) (key : String) (size : ℕ) (rec : StatRec) :
    sumOk (pushStats st key size rec).perFile + sumFail (pushStats st key size rec).perFile
      = sumOk st.perFile + sumFail st.perFile + 1 := by
  unfold pushStats
  dsimp only
  rcases hl : lookupBucket st.perFile key with _ | s
  · simp only [hl, Option.isSome_none, Bool.false_eq_true, if_false]
    have hlook : lookupBucket (st.perFile ++ [(key, emptyBucket size)]) key
        = some (emptyBucket size) := by
      unfold lookupBucket at hl ⊢
      rw [find?_append_of_none _ _ _ (Option.map_eq_none'.mp hl)]
      simp
    have hrepl := replaceBucket_sum key
      (bumpBucket rec (rec.timings.getD emptyTimings) (emptyBucket size))
      (st.perFile ++ [(key, emptyBucket size)]) (emptyBucket size) hlook
    have hbump := bumpBucket_tot rec (rec.timings.getD emptyTimings) (emptyBucket size)
    have happ : sumOk (st.perFile ++ [(key, emptyBucket size)]) = sumOk st.perFile ∧
        sumFail (st.perFile ++ [(key, emptyBucket size)]) = sumFail st.perFile := by
      unfold sumOk sumFail
      simp [emptyBucket]
    rw [hlook]
    simp only [Option.getD_some]
    omega
  · simp only [hl, Option.isSome_some, if_true]
    have hrepl := replaceBucket_sum key
      (bumpBucket rec (rec.timings.getD emptyTimings) s) st.perFile s hl
    have hbump := bumpBucket_tot rec (rec.timings.getD emptyTimings) s
    simp only [Option.getD_some]
    omega

/-- `pushStats` does not touch the totals or the trace map. -/
theorem pushStats_keeps (st : RunAgg) (key : String) (size : ℕ) (rec : StatRec) :
    (pushStats st key size rec).totalOk = st.totalOk ∧
    (pushStats st key size rec).totalTried = st.totalTried ∧
    (pushStats st key size rec).reqMap = st.reqMap :=
  ⟨rfl, rfl, rfl⟩

/-- One processed attempt adds exactly one to the ok/fail total. -/
theorem processAttempt_sum (st : RunAgg) (f : FileAsset) (r : AttemptResult) :
    sumOk (processAttempt st f r).1.perFile + sumFail (processAttempt st f r).1.perFile
      = sumOk st.perFile + sumFail st.perFile + 1 := by
  cases r with
  | response ok d tm => exact pushStats_sum st f.name f.size ⟨ok, some d, tm⟩
  | exception =>
    exact pushStats_sum { st with exceptions := st.exceptions + 1 } f.name f.size
      ⟨false, none, some emptyTimings⟩

/-- One processed attempt does not touch the totals or the trace map. -/
theorem processAttempt_keeps (st : RunAgg) (f : FileAsset) (r : AttemptResult) :
    (processAttempt st f r).1.totalOk = st.totalOk ∧
    (processAttempt st f r).1.totalTried = st.totalTried ∧
    (processAttempt st f r).1.reqMap = st.reqMap := by
  cases r with
  | response ok d tm => exact ⟨rfl, rfl, rfl⟩
  | exception => exact ⟨rfl, rfl, rfl⟩

/-- Processing a batch's attempts adds one ok-or-fail count per file. -/
theorem runFiles_sum (oracle : ℕ → AttemptResult) :
    ∀ (l : List (ℕ × FileAsset)) (st : RunAgg),
      sumOk (runFiles oracle l st).1.perFile + sumFail (runFiles oracle l st).1.perFile
        = sumOk st.perFile + sumFail st.perFile + l.length := by
  intro l
  induction l with
  | nil => intro st; simp [runFiles]
  | cons p rest ih =>
    obtain ⟨i, f⟩ := p
    intro st
    unfold runFiles
    dsimp only
    have h1 := processAttempt_sum st f (oracle i)
    have h2 := ih (processAttempt st f (oracle i)).1
    simp only [List.length_cons]
    omega

/-- Processing a batch's attempts does not touch the totals or the trace map. -/
theorem runFiles_keeps (oracle : ℕ → AttemptResult) :
    ∀ (l : List (ℕ × FileAsset)) (st : RunAgg),
      (runFiles oracle l st).1.totalOk = st.totalOk ∧
      (runFiles oracle l st).1.totalTried = st.totalTried ∧
      (runFiles oracle l st).1.reqMap = st.reqMap := by
  intro l
  induction l with
  | nil => intro st; exact ⟨rfl, rfl, rfl⟩
  | cons p rest ih =>
    obtain ⟨i, f⟩ := p
    intro st
    unfold runFiles
    dsimp only
    have h1 := processAttempt_keeps st f (oracle i)
    have h2 := ih (processAttempt st f (oracle i)).1
    exact ⟨h2.1.trans h1.1, (h2.2.1.trans h1.2.1), h2.2.2.trans h1.2.2⟩

/-- Unrolling one batch of the run. -/
theorem stateAfter_succ (order : ℕ → List FileAsset) (oracle : ℕ → ℕ → AttemptResult)
    (leftover : ℕ → List (ℕ × TraceRecord)) (sweepT : ℕ → ℚ) (k : ℕ) :
    stateAfter order oracle leftover sweepT (k + 1)
      = batchStep order oracle leftover sweepT (stateAfter order oracle leftover sweepT k) k := by
  unfold stateAfter
  rw [List.range_succ, List.foldl_append, List.foldl_cons, List.foldl_nil]

/-- C9: in every non-dry run of `B` batches over a file set of `F` files
(each batch processing a permutation of the file set), the sum of the per-file
`ok` counters plus the sum of the per-file `fail` counters equals
`totalTried`, and `totalTried = B * F` — every attempted upload is counted
exactly once as ok or fail. -/
theorem claim_c9 (files : List FileAsset) (order : ℕ → List FileAsset)
    (oracle : ℕ → ℕ → AttemptResult) (leftover : ℕ → List (ℕ × TraceRecord))
    (sweepT : ℕ → ℚ) (batches : ℕ)
    (horder : ∀ b, List.Perm (order b) files) :
    sumOk (stateAfter order oracle leftover sweepT batches).perFile +
      sumFail (stateAfter order oracle leftover sweepT batches).perFile
      = (stateAfter order oracle leftover sweepT batches).totalTried ∧
    (stateAfter order oracle leftover sweepT batches).totalTried
      = batches * files.length := by
  induction batches with
  | zero => exact ⟨rfl, by simp [stateAfter, initAgg]⟩
  | succ k ih =>
    rw [stateAfter_succ]
    unfold batchStep
    dsimp only
    have hsum := runFiles_sum (oracle k) ((order k).enum)
      (stateAfter order oracle leftover sweepT k)
    have hkeep := runFiles_keeps (oracle k) ((order k).enum)
      (stateAfter order oracle leftover sweepT k)
    have hlen : (order k).length = files.length := (horder k).length_eq
    have helen : ((order k).enum).length = (order k).length := List.enum_length
    rw [Nat.succ_mul]
    constructor
    · omega
    · omega

/-- C9 witness: one batch over two files, every attempt failing with an
exception, yields matching totals. -/
theorem claim_c9_witness :
    sumOk (stateAfter (fun _ => [⟨"a", 1⟩, ⟨"b", 2⟩]) (fun _ _ => AttemptResult.exception)
        (fun _ => []) (fun _ => 0) 1).perFile +
      sumFail (stateAfter (fun _ => [⟨"a", 1⟩, ⟨"b", 2⟩]) (fun _ _ => AttemptResult.exception)
        (fun _ => []) (fun _ => 0) 1).perFile
      = (stateAfter (fun _ => [⟨"a", 1⟩, ⟨"b", 2⟩]) (fun _ _ => AttemptResult.exception)
        (fun _ => []) (fun _ => 0) 1).totalTried ∧
    (stateAfter (fun _ => [⟨"a", 1⟩, ⟨"b", 2⟩]) (fun _ _ => AttemptResult.exception)
        (fun _ => []) (fun _ => 0) 1).totalTried
      = 1 * (List.length ([⟨"a", 1⟩, ⟨"b", 2⟩] : List FileAsset)) :=
  claim_c9 [⟨"a", 1⟩, ⟨"b", 2⟩] (fun _ => [⟨"a", 1⟩, ⟨"b", 2⟩])
    (fun _ _ => AttemptResult.exception) (fun _ => []) (fun _ => 0) 1
    (fun _ => List.Perm.refl _)

/-- C8: after every batch `b`, the stale-trace sweep has run over the trace
map: the post-batch map is exactly the sweep of the pre-sweep map at the
batch's sweep time; every record created more than 5 minutes (300000 ms)
before the sweep has been removed; and every record created less than 5
minutes before the sweep (e.g. 1 minute before) is retained. -/
theorem claim_c8 (order : ℕ → List FileAsset) (oracle : ℕ → ℕ → AttemptResult)
    (leftover : ℕ → List (ℕ × TraceRecord)) (sweepT : ℕ → ℚ) (b : ℕ) :
    (stateAfter order oracle leftover sweepT (b + 1)).reqMap
      = cleanupOrphanedTraces (sweepT b) (preSweepTraces order oracle leftover sweepT b) ∧
    (∀ p ∈ (stateAfter order oracle leftover sweepT (b + 1)).reqMap, ∀ t : ℚ,
        p.2.createdAt = some t → ¬(t < sweepT b - 300000)) ∧
    (∀ p ∈ preSweepTraces order oracle leftover sweepT b,
        (∀ t : ℚ, p.2.createdAt = some t → sweepT b - 300000 < t) →
        p ∈ (stateAfter order oracle leftover sweepT (b + 1)).reqMap) := by
  have hmap : (stateAfter order oracle leftover sweepT (b + 1)).reqMap
      = cleanupOrphanedTraces (sweepT b) (preSweepTraces order oracle leftover sweepT b) := by
    rw [stateAfter_succ]
    unfold batchStep preSweepTraces
    dsimp only
    rw [(runFiles_keeps (oracle b) ((order b).enum)
      (stateAfter order oracle leftover sweepT b)).2.2]
  refine ⟨hmap, ?_, ?_⟩
  · intro p hp t hct
    rw [hmap] at hp
    unfold cleanupOrphanedTraces at hp
    have hkeep := (List.mem_filter.mp hp).2
    unfold staleAt at hkeep
    rw [hct] at hkeep
    simpa using hkeep
  · intro p hp hfresh
    rw [hmap]
    unfold cleanupOrphanedTraces
    apply List.mem_filter.mpr
    refine ⟨hp, ?_⟩
    unfold staleAt
    rcases hca : p.2.createdAt with _ | t
    · rfl
    · have hlt := hfresh t hca
      simp only [Bool.not_eq_true', decide_eq_false_iff_not]
      exact not_lt.mpr (le_of_lt hlt)

/-- C8 witness: with a sweep at t = 400000 over a map holding a record created
at t = 100 (stale) and one created at t = 350000 (fresh, less than 5 minutes
old), the fresh record is retained after batch 1. -/
theorem claim_c8_witness :
    ((2 : ℕ), ({ createdAt := some 350000 } : TraceRecord)) ∈
      (stateAfter (fun _ => ([] : List FileAsset)) (fun _ _ => AttemptResult.exception)
        (fun _ => [(1, { createdAt := some 100 }), (2, { createdAt := some 350000 })])
        (fun _ => 400000) 1).reqMap := by
  apply (claim_c8 (fun _ => ([] : List FileAsset)) (fun _ _ => AttemptResult.exception)
      (fun _ => [(1, { createdAt := some 100 }), (2, { createdAt := some 350000 })])
      (fun _ => 400000) 0).2.2
  · simp [preSweepTraces, stateAfter, initAgg]
  · intro t ht
    have h350 : (350000 : ℚ) = t := Option.some_inj.mp ht
    subst h350
    norm_num

/-- C2 (counterexample): in `cli.mjs`, a dry run over one file and one batch
writes no planned record at all — the run exits right after the start record
(line 501) — so "exactly one planned record per (batch, file)" fails: the
count for (batch 1, file "a") is 0, not 1. -/
theorem claim_c2_counterexample :
    (cliDryEvents [⟨"a", 10⟩] 1).countP (isPlanned 1 "a") = 0 ∧ (0 : ℕ) ≠ 1 := by
  constructor
  · rfl
  · decide

/-- `countP` distributes over `bind` as a sum of per-element counts. -/
theorem countP_bind {γ δ : Type} (p : δ → Bool) (l : List γ) (g : γ → List δ) :
    List.countP p (l.bind g) = (l.map (fun x => List.countP p (g x))).sum := by
  induction l with
  | nil => rfl
  | cons a l ih =>
    rw [show (a :: l).bind g = g a ++ l.bind g from rfl,
      List.countP_append, List.map_cons, List.sum_cons, ih]

/-- Summing an indicator of `x + 1 = b` over `range batches` gives 1 when
`1 ≤ b ≤ batches`. -/
theorem sum_indicator_range (batches b : ℕ) (h1 : 1 ≤ b) (h2 : b ≤ batches) :
    ((List.range batches).map (fun x => if x + 1 = b then 1 else 0)).sum = 1 := by
  induction batches with
  | zero => omega
  | succ n ih =>
    rw [List.range_succ, List.map_append, List.sum_append]
    by_cases hb : b = n + 1
    · subst hb
      have hzero : ((List.range n).map (fun x => if x + 1 = n + 1 then 1 else 0)).sum = 0 := by
        apply List.sum_eq_zero
        intro x hx
        obtain ⟨y, hy, hxy⟩ := List.mem_map.mp hx
        have hyn : y < n := List.mem_range.mp hy
        rw [← hxy, if_neg]
        omega
      rw [hzero]
      simp
    · have hble : b ≤ n := by omega
      rw [ih hble]
      simp only [List.map_cons, List.map_nil, List.sum_cons, List.sum_nil]
      rw [if_neg (by omega)]
      omega

/-- A sum of 0/1 indicators of a Boolean predicate is the `countP`. -/
theorem sum_map_ite_eq_countP {γ : Type} (l : List γ) (p : γ → Bool) :
    (l.map (fun x => if p x then 1 else 0)).sum = List.countP p l := by
  induction l with
  | nil => rfl
  | cons a l ih =>
    rw [List.map_cons, List.sum_cons, List.countP_cons, ih]
    omega

/-- Count of the `(b, name)` dry-run records in one legacy dry batch: the
per-file count of `name` when the batch numbers match, 0 otherwise. -/
theorem countP_legacyBatch_dry (files : List FileAsset)
    (oracle : ℕ → String → LegacyOutcome) (bNo b : ℕ) (name : String) :
    List.countP (fun ev => ev == Ev.logDry b name 0) (legacyBatch files true oracle bNo)
      = if bNo = b then List.countP (fun f => f.name == name) files else 0 := by
  unfold legacyBatch
  rw [List.countP_append]
  have hbe : List.countP (fun ev => ev == Ev.logDry b name 0) [Ev.logBatchEnd bNo] = 0 := by
    simp [List.countP_cons]
  rw [hbe]
  rw [show legacyFileEvents oracle bNo true = (fun f => [Ev.logDry bNo f.name 0]) from
    funext (fun f => rfl)]
  rw [countP_bind]
  by_cases hb : bNo = b
  · subst hb
    rw [if_pos rfl]
    have hq : ∀ f : FileAsset,
        List.countP (fun ev => ev == Ev.logDry bNo name 0) [Ev.logDry bNo f.name 0]
          = if f.name == name then 1 else 0 := by
      intro f
      by_cases h : f.name = name
      · rw [h]; simp [List.countP_cons]
      · rw [if_neg (by simp [h])]
        simp [List.countP_cons, h]
    simp only [hq]
    rw [sum_map_ite_eq_countP]
    omega
  · rw [if_neg hb]
    apply List.sum_eq_zero
    intro x hx
    obtain ⟨f, _, hxf⟩ := List.mem_map.mp hx
    rw [← hxf]
    simp [List.countP_cons, hb]

/-- C2 (amended): in `cli.mjs`, a dry run writes the start record and exits
before the batch loop, so no network invocation occurs — but no per-file
planned records are written either.  The planned-record behavior belongs to
the legacy script (the unnamed source file): there, a dry run performs no
network invocation and writes exactly one `dry-run` record with
`durationMs = 0` for every batch `b` in `1..B` and every file `f` of the
(distinctly named) file set. -/
theorem claim_c2 (files : List FileAsset) (batches : ℕ)
    (oracle : ℕ → String → LegacyOutcome) (f : FileAsset) (b : ℕ)
    (hnodup : (files.map FileAsset.name).Nodup)
    (hf : f ∈ files) (hb1 : 1 ≤ b) (hb2 : b ≤ batches) :
    (∀ ev ∈ legacyEvents files batches true oracle, isInvoke ev = false) ∧
    (legacyEvents files batches true oracle).countP
      (fun ev => ev == Ev.logDry b f.name 0) = 1 ∧
    (∀ ev ∈ cliDryEvents files batches, isInvoke ev = false) := by
  refine ⟨?_, ?_, ?_⟩
  · intro ev hev
    unfold legacyEvents at hev
    rcases List.mem_cons.mp hev with h | h
    · subst h; rfl
    rcases List.mem_append.mp h with h | h
    · obtain ⟨b', _, he⟩ := List.mem_bind.mp h
      unfold legacyBatch at he
      rcases List.mem_append.mp he with h' | h'
      · obtain ⟨f', _, he'⟩ := List.mem_bind.mp h'
        have hfe : legacyFileEvents oracle (b' + 1) true f' = [Ev.logDry (b' + 1) f'.name 0] :=
          rfl
        rw [hfe] at he'
        rw [List.mem_singleton.mp he']
        rfl
      · rw [List.mem_singleton.mp h']
        rfl
    · rw [List.mem_singleton.mp h]
      rfl
  · unfold legacyEvents
    rw [List.countP_append, List.countP_cons, countP_bind]
    have hcp1 : List.countP (fun f' => f'.name == f.name) files = 1 := by
      have h1 : (files.map FileAsset.name).count f.name = 1 :=
        List.count_eq_one_of_mem hnodup (List.mem_map_of_mem _ hf)
      have h2 : List.countP (fun x => x == f.name) (files.map FileAsset.name) = 1 := h1
      rw [List.countP_map] at h2
      simpa [Function.comp] using h2
    have hbatch : ∀ b' ∈ List.range batches,
        List.countP (fun ev => ev == Ev.logDry b f.name 0)
          (legacyBatch files true oracle (b' + 1)) = if b' + 1 = b then 1 else 0 := by
      intro b' _
      rw [countP_legacyBatch_dry files oracle (b' + 1) b f.name, hcp1]
    rw [List.map_congr_left hbatch, sum_indicator_range batches b hb1 hb2]
    simp [List.countP_cons]
  · intro ev hev
    rw [List.mem_singleton.mp hev]
    rfl

/-- C2 witness: two distinctly named files, two batches — the (batch 2, "a")
dry-run record occurs exactly once in the legacy dry run. -/
theorem claim_c2_witness :
    (legacyEvents [⟨"a", 1⟩, ⟨"bb", 2⟩] 2 true (fun _ _ => LegacyOutcome.exception)).countP
      (fun ev => ev == Ev.logDry 2 "a" 0) = 1 :=
  (claim_c2 [⟨"a", 1⟩, ⟨"bb", 2⟩] 2 (fun _ _ => LegacyOutcome.exception) ⟨"a", 1⟩ 2
    (by decide) (by decide) (by decide) (by decide)).2.1

end CldBench
